import Mathlib

/- Verification of the agentic-finance workshop notebooks.

   Part 1 embeds the metrics-lookup tools defined in the notebook
   (SYMBOLS, _symbol_is_valid, get_latest_metrics, get_all_metrics).
   Python dicts are modelled as insertion-ordered association lists,
   json.dumps as a deterministic serializer with Python's default
   separators, and the exceptions Python indexing can raise (KeyError,
   ValueError from max on an empty dict) as an Except result.

   Part 2 models the round-robin team scheduler with pluggable
   termination that the notebook configures but that lives in the
   imported agent framework; it is modelled from the spec's design
   (Turn Scheduler and Termination Predicate). -/

/-- Python dict with string keys: an insertion-ordered association list.
The metric mapping of one date; metric values are modelled by their
serialized literals. -/
abbrev MetricMap := List (String × String)

/-- Per-symbol table of one ticker: date string to metric mapping. -/
abbrev SymbolTable := List (String × MetricMap)

/-- The module-level METRICS dict loaded from metrics.json: ticker symbol
to per-date table. Its content is data, so it stays a parameter. -/
abbrev MetricsTable := List (String × SymbolTable)

/-- Python `k in d` on a dict: key membership. -/
def dictHasKey {β : Type} (d : List (String × β)) (k : String) : Bool :=
  d.any (fun p => p.1 == k)

/-- Python `d[k]`: value at a key, `none` when absent (a KeyError site). -/
def dictGet? {β : Type} (d : List (String × β)) (k : String) : Option β :=
  (d.find? (fun p => p.1 == k)).map Prod.snd

/-- The whitelist from the notebook: `SYMBOLS = ["TSLA.US", "AMZN.US", "AAPL.US"]`. -/
def SYMBOLS : List String := ["TSLA.US", "AMZN.US", "AAPL.US"]

/-- Python `max` over a dict's keys under string comparison; `none` on an
empty dict (a ValueError site). Ties keep the earlier key, as Python max does. -/
def maxKey? : SymbolTable → Option String
  | [] => none
  | p :: ps => some (ps.foldl (fun a q => if a < q.1 then q.1 else a) p.1)

/-- Joins serialized entries with json.dumps' default item separator ", ". -/
def joinComma : List String → String
  | [] => ""
  | [x] => x
  | x :: y :: ys => x ++ ", " ++ joinComma (y :: ys)

/-- json.dumps of a metric mapping, in insertion order, with the default
separators; a value prints unquoted since it is modelled by its literal. -/
def dumpsMetricMap (m : MetricMap) : String :=
  "\x7b" ++ joinComma (m.map (fun p => "\"" ++ p.1 ++ "\": " ++ p.2)) ++ "\x7d"

/-- json.dumps of a per-date table, in insertion order. -/
def dumpsSymbolTable (t : SymbolTable) : String :=
  "\x7b" ++ joinComma (t.map (fun p => "\"" ++ p.1 ++ "\": " ++ dumpsMetricMap p.2)) ++ "\x7d"

/-- Errors the Python tool bodies could raise. -/
inductive PyErr where
  | keyError
  | valueError
  deriving DecidableEq

/-- Embeds `_symbol_is_valid`: true only if the ticker is in the whitelist
and metrics are actually stored for it. -/
def _symbol_is_valid (METRICS : MetricsTable) (symbol : String) : Bool :=
  SYMBOLS.contains symbol && dictHasKey METRICS symbol

/-- Embeds `get_latest_metrics`: "{}" for an invalid symbol, otherwise
json.dumps of the single entry at the chronologically last date key.
Each dict indexing and the `max` call keep their Python failure modes. -/
def get_latest_metrics (METRICS : MetricsTable) (symbol : String) : Except PyErr String :=
  if _symbol_is_valid METRICS symbol then
    match dictGet? METRICS symbol with
    | none => Except.error PyErr.keyError
    | some tbl =>
      match maxKey? tbl with
      | none => Except.error PyErr.valueError
      | some latest_date =>
        match dictGet? tbl latest_date with
        | none => Except.error PyErr.keyError
        | some latest_data =>
          Except.ok (dumpsSymbolTable [(latest_date, latest_data)])
  else Except.ok "\x7b\x7d"

/-- Embeds `get_all_metrics`: "{}" for an invalid symbol, otherwise
json.dumps of the symbol's whole per-date table. -/
def get_all_metrics (METRICS : MetricsTable) (symbol : String) : Except PyErr String :=
  if _symbol_is_valid METRICS symbol then
    match dictGet? METRICS symbol with
    | none => Except.error PyErr.keyError
    | some tbl => Except.ok (dumpsSymbolTable tbl)
  else Except.ok "\x7b\x7d"

/-- One call to `get_all_metrics` with the module-level METRICS threaded as
explicit state: the body only reads the table, so the state is returned
unchanged. -/
def get_all_metrics_call (symbol : String) (st : MetricsTable) :
    Except PyErr String × MetricsTable :=
  (get_all_metrics st symbol, st)

/-- Modelled from the spec: a Message of the Transcript, with the emitting
participant's name (or "user") and its content. -/
structure Message where
  source : String
  content : String
  deriving DecidableEq

/-- Returns whether `marker` occurs at the start of `hay`. -/
def isPrefixChars : List Char → List Char → Bool
  | [], _ => true
  | _ :: _, [] => false
  | c :: cs, d :: ds => c == d && isPrefixChars cs ds

/-- Returns whether `pat` occurs as a contiguous run inside `hay`. -/
def subChars : List Char → List Char → Bool
  | pat, [] => isPrefixChars pat []
  | pat, c :: cs => isPrefixChars pat (c :: cs) || subChars pat cs

/-- Python `marker in content`: case-sensitive substring containment. -/
def strContains (content marker : String) : Bool :=
  subChars marker.data content.data

/-- Modelled from the spec: the TerminationCondition variants the notebook
composes — message-count bound (MaxMessageTermination, with its running
counter), content-match (TextMentionTermination), and logical OR. -/
inductive TermCond where
  | maxMessage (threshold : Nat) (count : Nat)
  | textMention (marker : String)
  | orCond (a b : TermCond)
  deriving DecidableEq

/-- Modelled from the spec: evaluate a condition on one newly appended
Message, returning whether it fires and the condition's next state. The
count bound ticks its counter and fires once the count reaches the
threshold; content-match fires when the message contains the marker; OR
fires when either child fires, stepping both children. -/
def TermCond.step : TermCond → Message → Bool × TermCond
  | .maxMessage n c, _ => (decide (n ≤ c + 1), .maxMessage n (c + 1))
  | .textMention marker, m => (strContains m.content marker, .textMention marker)
  | .orCond a b, m =>
    ((a.step m).1 || (b.step m).1, .orCond (a.step m).2 (b.step m).2)

/-- Modelled from the spec: a named Participant producing zero or more
Messages from the Transcript so far. -/
structure Participant where
  name : String
  act : List Message → List Message

/-- Outcome of appending a batch of messages: all appended without firing,
the condition fired, or the hard message cap was hit. -/
inductive StepOutcome where
  | ok
  | fired
  | capped
  deriving DecidableEq

/-- Scheduler state: the Transcript so far, the current condition state,
and how many messages were appended since the Run started. -/
structure SchedState where
  transcript : List Message
  cond : TermCond
  appended : Nat

/-- Modelled from the spec: append a participant's messages one at a time,
evaluating the TerminationCondition after each individual append and
stopping immediately when it fires; the hard message cap is checked next,
so a firing condition wins over exhaustion at the same message. -/
def appendLoop (cap : Nat) : SchedState → List Message → SchedState × StepOutcome
  | st, [] => (st, .ok)
  | st, m :: rest =>
    if (st.cond.step m).1 then
      (⟨st.transcript ++ [m], (st.cond.step m).2, st.appended + 1⟩, .fired)
    else if cap ≤ st.appended + 1 then
      (⟨st.transcript ++ [m], (st.cond.step m).2, st.appended + 1⟩, .capped)
    else
      appendLoop cap ⟨st.transcript ++ [m], (st.cond.step m).2, st.appended + 1⟩ rest

/-- Modelled from the spec: one round gives each Participant, in fixed
order, the Transcript so far, appending what it produces; the round stops
early the moment a condition fires or the cap is hit. -/
def roundLoop (cap : Nat) : SchedState → List Participant → SchedState × StepOutcome
  | st, [] => (st, .ok)
  | st, p :: ps =>
    match appendLoop cap st (p.act st.transcript) with
    | (st', .ok) => roundLoop cap st' ps
    | (st', .fired) => (st', .fired)
    | (st', .capped) => (st', .capped)

/-- Terminal status of a Run: a TerminationCondition fired, or the hard
cap was reached without one firing ("exhausted"). -/
inductive RunStatus where
  | fired
  | exhausted
  deriving DecidableEq

/-- Modelled from the spec: repeat rounds until a condition fires; the
fuel counts rounds, so the single hard round/message cap also stops runs
whose participants produce nothing. -/
def runLoop (parts : List Participant) (cap : Nat) : Nat → SchedState → SchedState × RunStatus
  | 0, st => (st, .exhausted)
  | fuel + 1, st =>
    match roundLoop cap st parts with
    | (st', .fired) => (st', .fired)
    | (st', .capped) => (st', .exhausted)
    | (st', .ok) => runLoop parts cap fuel st'

/-- Result of a Run: the final Transcript and the terminal status. -/
structure RunResult where
  transcript : List Message
  status : RunStatus

/-- Modelled from the spec: a Run seeds the Transcript with the task as a
message from "user", then drives rounds with the hard round/message cap. -/
def run (parts : List Participant) (cond : TermCond) (cap : Nat) (seed : Message) : RunResult :=
  ⟨(runLoop parts cap cap ⟨[seed], cond, 0⟩).1.transcript,
   (runLoop parts cap cap ⟨[seed], cond, 0⟩).2⟩

/-- The composite condition the notebook configures:
`TextMentionTermination('APPROVE') | MaxMessageTermination(12)`. -/
def notebookTermination : TermCond :=
  .orCond (.textMention "APPROVE") (.maxMessage 12 0)

/-- One-based index of the first message whose content contains "APPROVE",
none when there is none. -/
def firstApproveIdx : List Message → Option Nat
  | [] => none
  | m :: ms =>
    if strContains m.content "APPROVE" then some 1
    else (firstApproveIdx ms).map (· + 1)

/-- Couples a condition family C, indexed by the running message count n,
to the boolean F it evaluates on the n-th appended message: stepping C n
fires exactly F n and moves to C (n+1). -/
def CondRepr (C : Nat → TermCond) (F : Nat → Message → Bool) : Prop :=
  ∀ n m, (C n).step m = (F n m, C (n + 1))

/-- No message of the list fires F, message indices starting at n. -/
def NoFire (F : Nat → Message → Bool) : Nat → List Message → Prop
  | _, [] => True
  | n, m :: ms => F n m = false ∧ NoFire F (n + 1) ms

/-- The message sources alternate a, b, a, b, … along the list. -/
def AltSrc (a b : String) : List Message → Prop
  | [] => True
  | m :: ms => m.source = a ∧ AltSrc b a ms

/-- Concrete seed task used by the witnesses. -/
def wSeed : Message := ⟨"user", "start"⟩

/-- Concrete message containing the APPROVE marker. -/
def wApproveMsg : Message := ⟨"Approver", "data APPROVE"⟩

/-- Concrete participant that always emits the APPROVE message. -/
def wApprover : Participant := ⟨"Approver", fun _ => [wApproveMsg]⟩

/-- Concrete participant that always emits one harmless message. -/
def wHi : Participant := ⟨"Hi", fun _ => [⟨"Hi", "hi there"⟩]⟩

/-- Concrete participant named A emitting one message per turn. -/
def wA : Participant := ⟨"A", fun _ => [⟨"A", "alpha"⟩]⟩

/-- Concrete participant named B emitting one message per turn. -/
def wB : Participant := ⟨"B", fun _ => [⟨"B", "beta"⟩]⟩

/-- Concrete per-date table with two quarters. -/
def wTbl : SymbolTable :=
  [("2024-12-31", [("current_ratio", "1.5")]), ("2025-03-31", [("current_ratio", "2.0")])]

/-- Concrete metrics table holding wTbl under TSLA.US. -/
def wM : MetricsTable := [("TSLA.US", wTbl)]

/-- Concrete metrics table whose TSLA.US entry is an empty per-date dict. -/
def wMempty : MetricsTable := [("TSLA.US", [])]

theorem dictHasKey_iff_get {β : Type} (d : List (String × β)) (k : String) :
    dictHasKey d k = true ↔ ∃ v, dictGet? d k = some v := by
  induction d with
  | nil => simp [dictHasKey, dictGet?]
  | cons p ps ih =>
    by_cases h : p.1 == k
    · simp [dictHasKey, dictGet?, List.find?_cons_of_pos, h]
    · rw [show dictHasKey (p :: ps) k = dictHasKey ps k by
        simp [dictHasKey, List.any_cons, h]]
      rw [show dictGet? (p :: ps) k = dictGet? ps k by
        simp [dictGet?, List.find?_cons_of_neg, h]]
      exact ih

theorem dictHasKey_iff_mem {β : Type} (d : List (String × β)) (k : String) :
    dictHasKey d k = true ↔ ∃ p ∈ d, p.1 = k := by
  simp [dictHasKey, List.any_eq_true, beq_iff_eq]

theorem foldl_max_spec :
    ∀ (ps : List (String × MetricMap)) (a : String),
      (ps.foldl (fun x q => if x < q.1 then q.1 else x) a = a ∨
        ∃ q ∈ ps, ps.foldl (fun x q => if x < q.1 then q.1 else x) a = q.1) ∧
      a ≤ ps.foldl (fun x q => if x < q.1 then q.1 else x) a ∧
      ∀ q ∈ ps, q.1 ≤ ps.foldl (fun x q => if x < q.1 then q.1 else x) a := by
  intro ps
  induction ps with
  | nil => intro a; exact ⟨Or.inl rfl, le_refl a, by simp⟩
  | cons q qs ih =>
    intro a
    simp only [List.foldl_cons]
    obtain ⟨h1, h2, h3⟩ := ih (if a < q.1 then q.1 else a)
    have ha : a ≤ (if a < q.1 then q.1 else a) := by
      by_cases hc : a < q.1
      · simp only [hc, if_true]; exact le_of_lt hc
      · simp only [hc, if_false]; exact le_refl a
    have hq : q.1 ≤ (if a < q.1 then q.1 else a) := by
      by_cases hc : a < q.1
      · simp only [hc, if_true]; exact le_refl _
      · simp only [hc, if_false]; exact le_of_not_lt hc
    refine ⟨?_, le_trans ha h2, ?_⟩
    · rcases h1 with h | ⟨r, hr, h⟩
      · by_cases hc : a < q.1
        · right; exact ⟨q, by simp, by rw [h]; simp [hc]⟩
        · left; rw [h]; simp [hc]
      · right; exact ⟨r, by simp [hr], h⟩
    · intro r hr
      rcases List.mem_cons.1 hr with h | h
      · rw [h]; exact le_trans hq h2
      · exact h3 r h

theorem maxKey?_spec (tbl : SymbolTable) (hne : tbl ≠ []) :
    ∃ d, maxKey? tbl = some d ∧ dictHasKey tbl d = true ∧ ∀ p ∈ tbl, p.1 ≤ d := by
  match tbl, hne with
  | p :: ps, _ =>
    obtain ⟨hmem, hinit, hmax⟩ := foldl_max_spec ps p.1
    have hdef : maxKey? (p :: ps) = some (ps.foldl (fun x q => if x < q.1 then q.1 else x) p.1) := rfl
    refine ⟨ps.foldl (fun x q => if x < q.1 then q.1 else x) p.1, hdef, ?_, ?_⟩
    · rcases hmem with h | ⟨q, hq, h⟩
      · exact (dictHasKey_iff_mem _ _).2 ⟨p, by simp, h.symm⟩
      · exact (dictHasKey_iff_mem _ _).2 ⟨q, by simp [hq], h.symm⟩
    · intro r hr
      rcases List.mem_cons.1 hr with h | h
      · rw [h]; exact hinit
      · exact hmax r h

theorem joinComma_cons_length (x : String) (xs : List String) :
    x.length ≤ (joinComma (x :: xs)).length := by
  cases xs with
  | nil => simp [joinComma]
  | cons y ys => simp [joinComma, String.length_append]; omega

theorem dumpsSymbolTable_ne_empty (t : SymbolTable) (h : t ≠ []) :
    dumpsSymbolTable t ≠ "\x7b\x7d" := by
  match t, h with
  | p :: ps, _ =>
    intro hEq
    have hlen := congrArg String.length hEq
    have hj := joinComma_cons_length ("\"" ++ p.1 ++ "\": " ++ dumpsMetricMap p.2)
      (ps.map (fun q => "\"" ++ q.1 ++ "\": " ++ dumpsMetricMap q.2))
    simp only [dumpsSymbolTable, List.map_cons, String.length_append] at hlen hj
    have e1 : ("\x7b" : String).length = 1 := rfl
    have e2 : ("\x7d" : String).length = 1 := rfl
    have e3 : ("\x7b\x7d" : String).length = 2 := rfl
    have e4 : ("\"" : String).length = 1 := rfl
    have e5 : ("\": " : String).length = 3 := rfl
    omega

/-- C6: for every symbol unknown to the metrics store, both the latest-scope and
the all-scope lookup return the empty JSON object rather than raising an error. -/
theorem C6_unknown_symbol_empty_obj (M : MetricsTable) (s : String)
    (h : dictHasKey M s = false) :
    get_latest_metrics M s = Except.ok "\x7b\x7d" ∧
    get_all_metrics M s = Except.ok "\x7b\x7d" := by
  have hv : _symbol_is_valid M s = false := by simp [_symbol_is_valid, h]
  exact ⟨by simp [get_latest_metrics, hv], by simp [get_all_metrics, hv]⟩

/-- Witness for C6 at the unknown symbol NVDA.US. -/
theorem C6_witness :
    dictHasKey wM "NVDA.US" = false ∧
    (get_latest_metrics wM "NVDA.US" = Except.ok "\x7b\x7d" ∧
     get_all_metrics wM "NVDA.US" = Except.ok "\x7b\x7d") :=
  ⟨by decide, C6_unknown_symbol_empty_obj wM "NVDA.US" (by decide)⟩

/-- C5: for every valid symbol (in the whitelist and in the metrics table) whose
per-date mapping is non-empty, get_latest_metrics returns the JSON object with
exactly the one entry at the maximum (lexicographically last) date key of the
symbol's table, and get_all_metrics returns the full per-date mapping unchanged. -/
theorem C5_latest_and_all_scope (M : MetricsTable) (s : String) (tbl : SymbolTable)
    (hv : _symbol_is_valid M s = true) (ht : dictGet? M s = some tbl) (hne : tbl ≠ []) :
    (∃ d data, maxKey? tbl = some d ∧ dictGet? tbl d = some data ∧
      (∀ p ∈ tbl, p.1 ≤ d) ∧
      get_latest_metrics M s = Except.ok (dumpsSymbolTable [(d, data)])) ∧
    get_all_metrics M s = Except.ok (dumpsSymbolTable tbl) := by
  obtain ⟨d, hd, hdk, hdmax⟩ := maxKey?_spec tbl hne
  obtain ⟨data, hdata⟩ := (dictHasKey_iff_get tbl d).1 hdk
  refine ⟨⟨d, data, hd, hdata, hdmax, ?_⟩, ?_⟩
  · simp [get_latest_metrics, hv, ht, hd, hdata]
  · simp [get_all_metrics, hv, ht]

/-- Witness for C5 at a concrete table with two quarters under TSLA.US. -/
theorem C5_witness :
    _symbol_is_valid wM "TSLA.US" = true ∧ dictGet? wM "TSLA.US" = some wTbl ∧ wTbl ≠ [] ∧
    ((∃ d data, maxKey? wTbl = some d ∧ dictGet? wTbl d = some data ∧
      (∀ p ∈ wTbl, p.1 ≤ d) ∧
      get_latest_metrics wM "TSLA.US" = Except.ok (dumpsSymbolTable [(d, data)])) ∧
     get_all_metrics wM "TSLA.US" = Except.ok (dumpsSymbolTable wTbl)) :=
  ⟨by decide, by rfl, by decide,
    C5_latest_and_all_scope wM "TSLA.US" wTbl (by decide) (by rfl) (by decide)⟩

/-- C8: two consecutive all-scope lookups with the METRICS table threaded as
state and no intervening mutation return the identical JSON result, and leave
the table unchanged: the lookup is a pure function of symbol and table. -/
theorem C8_lookup_idempotent (M : MetricsTable) (s : String) :
    (get_all_metrics_call s (get_all_metrics_call s M).2).1 = (get_all_metrics_call s M).1 ∧
    (get_all_metrics_call s (get_all_metrics_call s M).2).2 = M :=
  ⟨rfl, rfl⟩

/-- Witness for C8 at a concrete table and symbol. -/
theorem C8_witness :
    (get_all_metrics_call "TSLA.US" (get_all_metrics_call "TSLA.US" wM).2).1
      = (get_all_metrics_call "TSLA.US" wM).1 ∧
    (get_all_metrics_call "TSLA.US" (get_all_metrics_call "TSLA.US" wM).2).2 = wM :=
  C8_lookup_idempotent wM "TSLA.US"

/-- C9: for every input string neither lookup can raise a KeyError, thanks to
the _symbol_is_valid guard; get_all_metrics always returns a JSON string, and
get_latest_metrics returns one whenever the valid symbol's per-date mapping is
non-empty (so its max over date keys is defined). -/
theorem C9_total_no_keyError (M : MetricsTable) (s : String) :
    get_latest_metrics M s ≠ Except.error PyErr.keyError ∧
    get_all_metrics M s ≠ Except.error PyErr.keyError ∧
    (∃ r, get_all_metrics M s = Except.ok r) ∧
    (∀ tbl, _symbol_is_valid M s = true → dictGet? M s = some tbl → tbl ≠ [] →
      ∃ r, get_latest_metrics M s = Except.ok r) := by
  by_cases hv : _symbol_is_valid M s = true
  · have hk : dictHasKey M s = true := by
      have h2 := hv
      simp only [_symbol_is_valid, Bool.and_eq_true] at h2
      exact h2.2
    obtain ⟨tbl0, ht0⟩ := (dictHasKey_iff_get M s).1 hk
    refine ⟨?_, ?_, ?_, ?_⟩
    · cases htb : tbl0 with
      | nil =>
        have hmk : maxKey? tbl0 = none := by rw [htb]; rfl
        simp [get_latest_metrics, hv, ht0, hmk]
      | cons p ps =>
        obtain ⟨d, hd, hdk, _⟩ := maxKey?_spec tbl0 (by rw [htb]; simp)
        obtain ⟨data, hdata⟩ := (dictHasKey_iff_get tbl0 d).1 hdk
        simp [get_latest_metrics, hv, ht0, hd, hdata]
    · simp [get_all_metrics, hv, ht0]
    · exact ⟨dumpsSymbolTable tbl0, by simp [get_all_metrics, hv, ht0]⟩
    · intro tbl _ ht hne
      have htEq : tbl0 = tbl := by rw [ht0] at ht; exact Option.some.inj ht
      obtain ⟨d, hd, hdk, _⟩ := maxKey?_spec tbl0 (by rw [htEq]; exact hne)
      obtain ⟨data, hdata⟩ := (dictHasKey_iff_get tbl0 d).1 hdk
      exact ⟨dumpsSymbolTable [(d, data)], by simp [get_latest_metrics, hv, ht0, hd, hdata]⟩
  · refine ⟨by simp [get_latest_metrics, hv], by simp [get_all_metrics, hv],
      ⟨"\x7b\x7d", by simp [get_all_metrics, hv]⟩, fun tbl h _ _ => absurd h hv⟩

/-- Witness for C9 at a concrete table and symbol. -/
theorem C9_witness :
    (get_latest_metrics wM "TSLA.US" ≠ Except.error PyErr.keyError ∧
     get_all_metrics wM "TSLA.US" ≠ Except.error PyErr.keyError ∧
     (∃ r, get_all_metrics wM "TSLA.US" = Except.ok r) ∧
     (∀ tbl, _symbol_is_valid wM "TSLA.US" = true → dictGet? wM "TSLA.US" = some tbl →
       tbl ≠ [] → ∃ r, get_latest_metrics wM "TSLA.US" = Except.ok r)) :=
  C9_total_no_keyError wM "TSLA.US"

/-- C10 counterexample: with the concrete table holding an empty per-date dict
under TSLA.US, the symbol is in both the whitelist and the table, yet
get_all_metrics returns the empty object and get_latest_metrics raises
ValueError — so a non-empty result is not returned exactly when the symbol is
in both. -/
theorem C10_counterexample :
    SYMBOLS.contains "TSLA.US" = true ∧ dictHasKey wMempty "TSLA.US" = true ∧
    get_all_metrics wMempty "TSLA.US" = Except.ok "\x7b\x7d" ∧
    get_latest_metrics wMempty "TSLA.US" = Except.error PyErr.valueError :=
  ⟨by decide, by decide, by rfl, by rfl⟩

/-- C10 amended: whenever the symbol is missing from the whitelist or from the
table, both lookups return the empty object even though data may be stored;
and for a symbol that is a key of the table, a non-empty result is returned
exactly when the symbol is in the whitelist and its per-date mapping is
non-empty. -/
theorem C10_amended_validity (M : MetricsTable) (s : String) :
    ((SYMBOLS.contains s = false ∨ dictHasKey M s = false) →
      get_latest_metrics M s = Except.ok "\x7b\x7d" ∧
      get_all_metrics M s = Except.ok "\x7b\x7d") ∧
    (∀ tbl, dictGet? M s = some tbl →
      (((∃ r, get_all_metrics M s = Except.ok r ∧ r ≠ "\x7b\x7d") ↔
          SYMBOLS.contains s = true ∧ tbl ≠ []) ∧
       ((∃ r, get_latest_metrics M s = Except.ok r ∧ r ≠ "\x7b\x7d") ↔
          SYMBOLS.contains s = true ∧ tbl ≠ []))) := by
  constructor
  · intro h
    have hv : _symbol_is_valid M s = false := by
      rcases h with h | h
      · unfold _symbol_is_valid; rw [h, Bool.false_and]
      · unfold _symbol_is_valid; rw [h, Bool.and_false]
    exact ⟨by simp [get_latest_metrics, hv], by simp [get_all_metrics, hv]⟩
  · intro tbl htbl
    have hk : dictHasKey M s = true := (dictHasKey_iff_get M s).2 ⟨tbl, htbl⟩
    cases hw : SYMBOLS.contains s with
    | true =>
      have hv : _symbol_is_valid M s = true := by
        unfold _symbol_is_valid; rw [hw, hk]; rfl
      by_cases htb : tbl = []
      · subst htb
        have hall : get_all_metrics M s = Except.ok "\x7b\x7d" := by
          simp [get_all_metrics, hv, htbl, dumpsSymbolTable, joinComma]
        have hlat : get_latest_metrics M s = Except.error PyErr.valueError := by
          simp [get_latest_metrics, hv, htbl, maxKey?]
        constructor
        · constructor
          · rintro ⟨r, hr, hner⟩
            rw [hall] at hr
            exact absurd (Except.ok.inj hr).symm hner
          · rintro ⟨_, hne⟩; exact absurd rfl hne
        · constructor
          · rintro ⟨r, hr, _⟩
            rw [hlat] at hr
            exact Except.noConfusion hr
          · rintro ⟨_, hne⟩; exact absurd rfl hne
      · have hner := dumpsSymbolTable_ne_empty tbl htb
        have hall : get_all_metrics M s = Except.ok (dumpsSymbolTable tbl) := by
          simp [get_all_metrics, hv, htbl]
        obtain ⟨d, hd, hdk, _⟩ := maxKey?_spec tbl htb
        obtain ⟨data, hdata⟩ := (dictHasKey_iff_get tbl d).1 hdk
        have hlat : get_latest_metrics M s = Except.ok (dumpsSymbolTable [(d, data)]) := by
          simp [get_latest_metrics, hv, htbl, hd, hdata]
        constructor
        · constructor
          · intro _; exact ⟨rfl, htb⟩
          · intro _; exact ⟨dumpsSymbolTable tbl, hall, hner⟩
        · constructor
          · intro _; exact ⟨rfl, htb⟩
          · intro _
            exact ⟨dumpsSymbolTable [(d, data)], hlat,
              dumpsSymbolTable_ne_empty [(d, data)] (by simp)⟩
    | false =>
      have hv : _symbol_is_valid M s = false := by
        unfold _symbol_is_valid; rw [hw, Bool.false_and]
      have hall : get_all_metrics M s = Except.ok "\x7b\x7d" := by
        simp [get_all_metrics, hv]
      have hlat : get_latest_metrics M s = Except.ok "\x7b\x7d" := by
        simp [get_latest_metrics, hv]
      constructor
      · constructor
        · rintro ⟨r, hr, hner⟩
          rw [hall] at hr
          exact absurd (Except.ok.inj hr).symm hner
        · rintro ⟨hcs, _⟩; exact Bool.noConfusion hcs
      · constructor
        · rintro ⟨r, hr, hner⟩
          rw [hlat] at hr
          exact absurd (Except.ok.inj hr).symm hner
        · rintro ⟨hcs, _⟩; exact Bool.noConfusion hcs

/-- Witness for the amended C10 at a concrete table and symbol. -/
theorem C10_witness :
    (((SYMBOLS.contains "TSLA.US" = false ∨ dictHasKey wM "TSLA.US" = false) →
      get_latest_metrics wM "TSLA.US" = Except.ok "\x7b\x7d" ∧
      get_all_metrics wM "TSLA.US" = Except.ok "\x7b\x7d") ∧
    (∀ tbl, dictGet? wM "TSLA.US" = some tbl →
      (((∃ r, get_all_metrics wM "TSLA.US" = Except.ok r ∧ r ≠ "\x7b\x7d") ↔
          SYMBOLS.contains "TSLA.US" = true ∧ tbl ≠ []) ∧
       ((∃ r, get_latest_metrics wM "TSLA.US" = Except.ok r ∧ r ≠ "\x7b\x7d") ↔
          SYMBOLS.contains "TSLA.US" = true ∧ tbl ≠ [])))) :=
  C10_amended_validity wM "TSLA.US"

theorem appendLoop_shape (cap : Nat) :
    ∀ (msgs : List Message) (st : SchedState),
      ∃ taken rest,
        msgs = taken ++ rest ∧
        (appendLoop cap st msgs).1.transcript = st.transcript ++ taken ∧
        (appendLoop cap st msgs).1.appended = st.appended + taken.length ∧
        ((appendLoop cap st msgs).2 = .ok → rest = []) ∧
        (msgs ≠ [] → taken ≠ []) := by
  intro msgs
  induction msgs with
  | nil =>
    intro st
    exact ⟨[], [], rfl, by simp [appendLoop], by simp [appendLoop],
      fun _ => rfl, fun h => absurd rfl h⟩
  | cons m rest ih =>
    intro st
    by_cases h1 : (st.cond.step m).1 = true
    · refine ⟨[m], rest, rfl, by simp [appendLoop, h1], by simp [appendLoop, h1], ?_,
        fun _ => by simp⟩
      intro hok
      rw [show (appendLoop cap st (m :: rest)).2 = .fired from by simp [appendLoop, h1]] at hok
      exact StepOutcome.noConfusion hok
    · by_cases h2 : cap ≤ st.appended + 1
      · refine ⟨[m], rest, rfl, by simp [appendLoop, h1, h2], by simp [appendLoop, h1, h2], ?_,
          fun _ => by simp⟩
        intro hok
        rw [show (appendLoop cap st (m :: rest)).2 = .capped from by simp [appendLoop, h1, h2]] at hok
        exact StepOutcome.noConfusion hok
      · have hstep : appendLoop cap st (m :: rest)
            = appendLoop cap ⟨st.transcript ++ [m], (st.cond.step m).2, st.appended + 1⟩ rest := by
          simp [appendLoop, h1, h2]
        obtain ⟨tk, rs, hsplit, htr, hap, hok, _⟩ :=
          ih ⟨st.transcript ++ [m], (st.cond.step m).2, st.appended + 1⟩
        refine ⟨m :: tk, rs, by rw [hsplit, List.cons_append], ?_, ?_, ?_, fun _ => by simp⟩
        · rw [hstep, htr]; simp
        · rw [hstep, hap]; simp; omega
        · intro hok2; rw [hstep] at hok2; exact hok hok2

theorem appendLoop_le_cap (cap : Nat) :
    ∀ (msgs : List Message) (st : SchedState), st.appended < cap →
      (appendLoop cap st msgs).1.appended ≤ cap ∧
      ((appendLoop cap st msgs).2 = .ok → (appendLoop cap st msgs).1.appended < cap) := by
  intro msgs
  induction msgs with
  | nil =>
    intro st h
    exact ⟨by simp [appendLoop]; omega, fun _ => by simp [appendLoop]; omega⟩
  | cons m rest ih =>
    intro st h
    by_cases h1 : (st.cond.step m).1 = true
    · constructor
      · simp [appendLoop, h1]; omega
      · intro hok
        rw [show (appendLoop cap st (m :: rest)).2 = .fired from by simp [appendLoop, h1]] at hok
        exact StepOutcome.noConfusion hok
    · by_cases h2 : cap ≤ st.appended + 1
      · constructor
        · simp [appendLoop, h1, h2]; omega
        · intro hok
          rw [show (appendLoop cap st (m :: rest)).2 = .capped from by simp [appendLoop, h1, h2]] at hok
          exact StepOutcome.noConfusion hok
      · have hstep : appendLoop cap st (m :: rest)
            = appendLoop cap ⟨st.transcript ++ [m], (st.cond.step m).2, st.appended + 1⟩ rest := by
          simp [appendLoop, h1, h2]
        have hlt : (⟨st.transcript ++ [m], (st.cond.step m).2, st.appended + 1⟩ : SchedState).appended < cap := by
          simp; omega
        obtain ⟨ha, hb⟩ := ih _ hlt
        rw [hstep]
        exact ⟨ha, hb⟩

theorem noFire_append {F : Nat → Message → Bool} :
    ∀ (a : List Message) (n : Nat) (b : List Message),
      NoFire F n a → NoFire F (n + a.length) b → NoFire F n (a ++ b) := by
  intro a
  induction a with
  | nil => intro n b _ hb; simpa using hb
  | cons m ms ih =>
    intro n b ha hb
    obtain ⟨hm, hms⟩ := ha
    refine ⟨hm, ih (n + 1) b hms ?_⟩
    have : n + (m :: ms).length = n + 1 + ms.length := by simp; omega
    rw [this] at hb
    exact hb

theorem appendLoop_spec {C : Nat → TermCond} {F : Nat → Message → Bool}
    (hCF : CondRepr C F) (cap : Nat) :
    ∀ (msgs : List Message) (st : SchedState), st.cond = C st.appended →
      (appendLoop cap st msgs).1.cond = C ((appendLoop cap st msgs).1.appended) ∧
      ∃ taken,
        (appendLoop cap st msgs).1.transcript = st.transcript ++ taken ∧
        (appendLoop cap st msgs).1.appended = st.appended + taken.length ∧
        ((appendLoop cap st msgs).2 = .ok → NoFire F st.appended taken) ∧
        ((appendLoop cap st msgs).2 = .capped →
          NoFire F st.appended taken ∧ cap ≤ (appendLoop cap st msgs).1.appended) ∧
        ((appendLoop cap st msgs).2 = .fired →
          ∃ pre last, taken = pre ++ [last] ∧ NoFire F st.appended pre ∧
            F (st.appended + pre.length) last = true) := by
  intro msgs
  induction msgs with
  | nil =>
    intro st hc
    refine ⟨by simpa [appendLoop] using hc, [], by simp [appendLoop], by simp [appendLoop],
      fun _ => trivial, ?_, ?_⟩
    · intro hcp
      rw [show (appendLoop cap st ([] : List Message)).2 = .ok from rfl] at hcp
      exact StepOutcome.noConfusion hcp
    · intro hf
      rw [show (appendLoop cap st ([] : List Message)).2 = .ok from rfl] at hf
      exact StepOutcome.noConfusion hf
  | cons m rest ih =>
    intro st hc
    have hstep1 : (st.cond.step m).1 = F st.appended m := by rw [hc, hCF]
    have hstep2 : (st.cond.step m).2 = C (st.appended + 1) := by rw [hc, hCF]
    by_cases h1 : (st.cond.step m).1 = true
    · have hF : F st.appended m = true := by rw [← hstep1]; exact h1
      have hout : (appendLoop cap st (m :: rest)).2 = .fired := by simp [appendLoop, h1]
      constructor
      · simp [appendLoop, h1, hstep2]
      · refine ⟨[m], by simp [appendLoop, h1], by simp [appendLoop, h1], ?_, ?_, ?_⟩
        · intro hok; rw [hout] at hok; exact StepOutcome.noConfusion hok
        · intro hcp; rw [hout] at hcp; exact StepOutcome.noConfusion hcp
        · intro _; exact ⟨[], m, rfl, trivial, by simpa using hF⟩
    · have h1f : (st.cond.step m).1 = false := by
        cases hb : (st.cond.step m).1
        · rfl
        · exact absurd hb h1
      have hF : F st.appended m = false := by rw [← hstep1]; exact h1f
      by_cases h2 : cap ≤ st.appended + 1
      · have hout : (appendLoop cap st (m :: rest)).2 = .capped := by simp [appendLoop, h1, h2]
        constructor
        · simp [appendLoop, h1, h2, hstep2]
        · refine ⟨[m], by simp [appendLoop, h1, h2], by simp [appendLoop, h1, h2], ?_, ?_, ?_⟩
          · intro hok; rw [hout] at hok; exact StepOutcome.noConfusion hok
          · intro _
            exact ⟨⟨hF, trivial⟩, by simp [appendLoop, h1, h2]⟩
          · intro hf; rw [hout] at hf; exact StepOutcome.noConfusion hf
      · have hstep : appendLoop cap st (m :: rest)
            = appendLoop cap ⟨st.transcript ++ [m], (st.cond.step m).2, st.appended + 1⟩ rest := by
          simp [appendLoop, h1, h2]
        have hc' : (⟨st.transcript ++ [m], (st.cond.step m).2, st.appended + 1⟩ : SchedState).cond
            = C ((⟨st.transcript ++ [m], (st.cond.step m).2, st.appended + 1⟩ : SchedState).appended) := by
          simpa using hstep2
        obtain ⟨hcond, tk, htr, hap, hok, hcp, hfir⟩ := ih _ hc'
        rw [hstep]
        refine ⟨hcond, m :: tk, ?_, ?_, ?_, ?_, ?_⟩
        · rw [htr]; simp
        · rw [hap]; simp; omega
        · intro hok2
          exact ⟨hF, by simpa using hok hok2⟩
        · intro hcp2
          obtain ⟨hnf, hcap⟩ := hcp hcp2
          exact ⟨⟨hF, by simpa using hnf⟩, hcap⟩
        · intro hf2
          obtain ⟨pre, last, hsp, hnf, hFl⟩ := hfir hf2
          refine ⟨m :: pre, last, by rw [hsp, List.cons_append], ⟨hF, by simpa using hnf⟩, ?_⟩
          have : st.appended + (m :: pre).length = st.appended + 1 + pre.length := by simp; omega
          rw [this]
          simpa using hFl

theorem roundLoop_shape (cap : Nat) :
    ∀ (ps : List Participant) (st : SchedState),
      ∃ taken,
        (roundLoop cap st ps).1.transcript = st.transcript ++ taken ∧
        (roundLoop cap st ps).1.appended = st.appended + taken.length ∧
        (∀ m ∈ taken, ∃ p t, p ∈ ps ∧ m ∈ p.act t) ∧
        ((roundLoop cap st ps).2 = .ok → ps ≠ [] → (∀ p ∈ ps, ∀ t, p.act t ≠ []) →
          st.appended < (roundLoop cap st ps).1.appended) := by
  intro ps
  induction ps with
  | nil =>
    intro st
    exact ⟨[], by simp [roundLoop], by simp [roundLoop], by simp, fun _ h _ => absurd rfl h⟩
  | cons p ps ih =>
    intro st
    obtain ⟨tk1, rs1, hsplit1, htr1, hap1, hok1, hne1⟩ :=
      appendLoop_shape cap (p.act st.transcript) st
    rcases hA : appendLoop cap st (p.act st.transcript) with ⟨st1, out1⟩
    simp only [hA] at htr1 hap1 hok1
    cases out1 with
    | ok =>
      have hrs : rs1 = [] := hok1 rfl
      have htk1 : p.act st.transcript = tk1 := by rw [hsplit1, hrs, List.append_nil]
      obtain ⟨tk2, htr2, hap2, hprov2, hprog2⟩ := ih st1
      have hround : roundLoop cap st (p :: ps) = roundLoop cap st1 ps := by
        simp [roundLoop, hA]
      rw [hround]
      refine ⟨tk1 ++ tk2, ?_, ?_, ?_, ?_⟩
      · rw [htr2, htr1, List.append_assoc]
      · rw [hap2, hap1, List.length_append]; omega
      · intro m hm
        rcases List.mem_append.1 hm with hm | hm
        · exact ⟨p, st.transcript, by simp, by rw [htk1]; exact hm⟩
        · obtain ⟨q, t, hq, hmq⟩ := hprov2 m hm
          exact ⟨q, t, by simp [hq], hmq⟩
      · intro _ _ hacts
        have hne : tk1 ≠ [] := hne1 (hacts p (by simp) st.transcript)
        have : 1 ≤ tk1.length := by
          cases tk1 with
          | nil => exact absurd rfl hne
          | cons a b => simp
        rw [hap2, hap1]
        omega
    | fired =>
      have hround : roundLoop cap st (p :: ps) = (st1, .fired) := by
        simp [roundLoop, hA]
      rw [hround]
      refine ⟨tk1, htr1, hap1, ?_, ?_⟩
      · intro m hm
        refine ⟨p, st.transcript, by simp, ?_⟩
        rw [hsplit1]
        exact List.mem_append.2 (Or.inl hm)
      · intro hok2; exact StepOutcome.noConfusion hok2
    | capped =>
      have hround : roundLoop cap st (p :: ps) = (st1, .capped) := by
        simp [roundLoop, hA]
      rw [hround]
      refine ⟨tk1, htr1, hap1, ?_, ?_⟩
      · intro m hm
        refine ⟨p, st.transcript, by simp, ?_⟩
        rw [hsplit1]
        exact List.mem_append.2 (Or.inl hm)
      · intro hok2; exact StepOutcome.noConfusion hok2

theorem roundLoop_le_cap (cap : Nat) :
    ∀ (ps : List Participant) (st : SchedState), st.appended < cap →
      (roundLoop cap st ps).1.appended ≤ cap ∧
      ((roundLoop cap st ps).2 = .ok → (roundLoop cap st ps).1.appended < cap) := by
  intro ps
  induction ps with
  | nil =>
    intro st h
    exact ⟨by simp [roundLoop]; omega, fun _ => by simp [roundLoop]; omega⟩
  | cons p ps ih =>
    intro st h
    obtain ⟨hle1, hlt1⟩ := appendLoop_le_cap cap (p.act st.transcript) st h
    rcases hA : appendLoop cap st (p.act st.transcript) with ⟨st1, out1⟩
    simp only [hA] at hle1 hlt1
    cases out1 with
    | ok =>
      have hround : roundLoop cap st (p :: ps) = roundLoop cap st1 ps := by
        simp [roundLoop, hA]
      rw [hround]
      exact ih st1 (hlt1 rfl)
    | fired =>
      have hround : roundLoop cap st (p :: ps) = (st1, .fired) := by
        simp [roundLoop, hA]
      rw [hround]
      exact ⟨hle1, fun hok => StepOutcome.noConfusion hok⟩
    | capped =>
      have hround : roundLoop cap st (p :: ps) = (st1, .capped) := by
        simp [roundLoop, hA]
      rw [hround]
      exact ⟨hle1, fun hok => StepOutcome.noConfusion hok⟩

theorem roundLoop_spec {C : Nat → TermCond} {F : Nat → Message → Bool}
    (hCF : CondRepr C F) (cap : Nat) :
    ∀ (ps : List Participant) (st : SchedState), st.cond = C st.appended →
      (roundLoop cap st ps).1.cond = C ((roundLoop cap st ps).1.appended) ∧
      ∃ taken,
        (roundLoop cap st ps).1.transcript = st.transcript ++ taken ∧
        (roundLoop cap st ps).1.appended = st.appended + taken.length ∧
        ((roundLoop cap st ps).2 = .ok → NoFire F st.appended taken) ∧
        ((roundLoop cap st ps).2 = .capped →
          NoFire F st.appended taken ∧ cap ≤ (roundLoop cap st ps).1.appended) ∧
        ((roundLoop cap st ps).2 = .fired →
          ∃ pre last, taken = pre ++ [last] ∧ NoFire F st.appended pre ∧
            F (st.appended + pre.length) last = true) := by
  intro ps
  induction ps with
  | nil =>
    intro st hc
    refine ⟨by simpa [roundLoop] using hc, [], by simp [roundLoop], by simp [roundLoop],
      fun _ => trivial, ?_, ?_⟩
    · intro hcp
      rw [show (roundLoop cap st ([] : List Participant)).2 = .ok from rfl] at hcp
      exact StepOutcome.noConfusion hcp
    · intro hf
      rw [show (roundLoop cap st ([] : List Participant)).2 = .ok from rfl] at hf
      exact StepOutcome.noConfusion hf
  | cons p ps ih =>
    intro st hc
    obtain ⟨hcond1, tk1, htr1, hap1, hok1, hcp1, hfir1⟩ :=
      appendLoop_spec hCF cap (p.act st.transcript) st hc
    rcases hA : appendLoop cap st (p.act st.transcript) with ⟨st1, out1⟩
    simp only [hA] at hcond1 htr1 hap1 hok1 hcp1 hfir1
    cases out1 with
    | ok =>
      have hnf1 : NoFire F st.appended tk1 := hok1 rfl
      obtain ⟨hcond2, tk2, htr2, hap2, hok2, hcp2, hfir2⟩ := ih st1 hcond1
      have hround : roundLoop cap st (p :: ps) = roundLoop cap st1 ps := by
        simp [roundLoop, hA]
      rw [hround]
      have hidx : st1.appended = st.appended + tk1.length := hap1
      refine ⟨hcond2, tk1 ++ tk2, ?_, ?_, ?_, ?_, ?_⟩
      · rw [htr2, htr1, List.append_assoc]
      · rw [hap2, hap1, List.length_append]; omega
      · intro hok3
        exact noFire_append tk1 st.appended tk2 hnf1 (by rw [← hidx]; exact hok2 hok3)
      · intro hcp3
        obtain ⟨hnf2, hcap2⟩ := hcp2 hcp3
        exact ⟨noFire_append tk1 st.appended tk2 hnf1 (by rw [← hidx]; exact hnf2), hcap2⟩
      · intro hf3
        obtain ⟨pre2, last2, hsp2, hnf2, hFl2⟩ := hfir2 hf3
        refine ⟨tk1 ++ pre2, last2, by rw [hsp2, List.append_assoc], ?_, ?_⟩
        · exact noFire_append tk1 st.appended pre2 hnf1 (by rw [← hidx]; exact hnf2)
        · have : st.appended + (tk1 ++ pre2).length = st1.appended + pre2.length := by
            rw [hidx, List.length_append]; omega
          rw [this]
          exact hFl2
    | fired =>
      have hround : roundLoop cap st (p :: ps) = (st1, .fired) := by
        simp [roundLoop, hA]
      rw [hround]
      refine ⟨hcond1, tk1, htr1, hap1, ?_, ?_, fun _ => hfir1 rfl⟩
      · intro hok2; exact StepOutcome.noConfusion hok2
      · intro hcp2; exact StepOutcome.noConfusion hcp2
    | capped =>
      have hround : roundLoop cap st (p :: ps) = (st1, .capped) := by
        simp [roundLoop, hA]
      rw [hround]
      refine ⟨hcond1, tk1, htr1, hap1, ?_, fun _ => hcp1 rfl, ?_⟩
      · intro hok2; exact StepOutcome.noConfusion hok2
      · intro hf2; exact StepOutcome.noConfusion hf2

theorem runLoop_spec {C : Nat → TermCond} {F : Nat → Message → Bool}
    (hCF : CondRepr C F) (parts : List Participant) (cap : Nat) :
    ∀ (fuel : Nat) (st : SchedState), st.cond = C st.appended →
      ∃ taken,
        (runLoop parts cap fuel st).1.transcript = st.transcript ++ taken ∧
        (runLoop parts cap fuel st).1.appended = st.appended + taken.length ∧
        (∀ m ∈ taken, ∃ p t, p ∈ parts ∧ m ∈ p.act t) ∧
        ((runLoop parts cap fuel st).2 = .exhausted → NoFire F st.appended taken) ∧
        ((runLoop parts cap fuel st).2 = .fired →
          ∃ pre last, taken = pre ++ [last] ∧ NoFire F st.appended pre ∧
            F (st.appended + pre.length) last = true) := by
  intro fuel
  induction fuel with
  | zero =>
    intro st _
    refine ⟨[], by simp [runLoop], by simp [runLoop], by simp, fun _ => trivial, ?_⟩
    intro hf
    rw [show (runLoop parts cap 0 st).2 = .exhausted from rfl] at hf
    exact RunStatus.noConfusion hf
  | succ f ihf =>
    intro st hc
    obtain ⟨hcondR, tkR, htrR, hapR, hokR, hcpR, hfirR⟩ := roundLoop_spec hCF cap parts st hc
    obtain ⟨tkS, htrS, hapS, hprovS, _⟩ := roundLoop_shape cap parts st
    rcases hR : roundLoop cap st parts with ⟨st1, out1⟩
    simp only [hR] at hcondR htrR hapR hokR hcpR hfirR htrS hapS hprovS
    have htkEq : tkS = tkR := by
      have h1 : st.transcript ++ tkS = st.transcript ++ tkR := by rw [← htrS, htrR]
      exact List.append_cancel_left h1
    rw [htkEq] at hprovS
    cases out1 with
    | ok =>
      have hnf1 : NoFire F st.appended tkR := hokR rfl
      obtain ⟨tk2, htr2, hap2, hprov2, hexh2, hfir2⟩ := ihf st1 hcondR
      have hrun : runLoop parts cap (f + 1) st = runLoop parts cap f st1 := by
        simp [runLoop, hR]
      rw [hrun]
      have hidx : st1.appended = st.appended + tkR.length := hapR
      refine ⟨tkR ++ tk2, ?_, ?_, ?_, ?_, ?_⟩
      · rw [htr2, htrR, List.append_assoc]
      · rw [hap2, hapR, List.length_append]; omega
      · intro m hm
        rcases List.mem_append.1 hm with hm | hm
        · exact hprovS m hm
        · exact hprov2 m hm
      · intro hex
        exact noFire_append tkR st.appended tk2 hnf1 (by rw [← hidx]; exact hexh2 hex)
      · intro hf2
        obtain ⟨pre2, last2, hsp2, hnf2, hFl2⟩ := hfir2 hf2
        refine ⟨tkR ++ pre2, last2, by rw [hsp2, List.append_assoc], ?_, ?_⟩
        · exact noFire_append tkR st.appended pre2 hnf1 (by rw [← hidx]; exact hnf2)
        · have : st.appended + (tkR ++ pre2).length = st1.appended + pre2.length := by
            rw [hidx, List.length_append]; omega
          rw [this]
          exact hFl2
    | fired =>
      have hrun : runLoop parts cap (f + 1) st = (st1, .fired) := by
        simp [runLoop, hR]
      rw [hrun]
      refine ⟨tkR, htrR, hapR, hprovS, ?_, fun _ => hfirR rfl⟩
      intro hex; exact RunStatus.noConfusion hex
    | capped =>
      have hrun : runLoop parts cap (f + 1) st = (st1, .exhausted) := by
        simp [runLoop, hR]
      rw [hrun]
      refine ⟨tkR, htrR, hapR, hprovS, fun _ => (hcpR rfl).1, ?_⟩
      intro hf2; exact RunStatus.noConfusion hf2

theorem runLoop_le_cap (parts : List Participant) (cap : Nat) :
    ∀ (fuel : Nat) (st : SchedState), st.appended < cap →
      (runLoop parts cap fuel st).1.appended ≤ cap := by
  intro fuel
  induction fuel with
  | zero => intro st h; simp [runLoop]; omega
  | succ f ihf =>
    intro st h
    obtain ⟨hle, hlt⟩ := roundLoop_le_cap cap parts st h
    rcases hR : roundLoop cap st parts with ⟨st1, out1⟩
    simp only [hR] at hle hlt
    cases out1 with
    | ok =>
      have hrun : runLoop parts cap (f + 1) st = runLoop parts cap f st1 := by
        simp [runLoop, hR]
      rw [hrun]
      exact ihf st1 (hlt rfl)
    | fired =>
      have hrun : runLoop parts cap (f + 1) st = (st1, .fired) := by
        simp [runLoop, hR]
      rw [hrun]
      exact hle
    | capped =>
      have hrun : runLoop parts cap (f + 1) st = (st1, .exhausted) := by
        simp [runLoop, hR]
      rw [hrun]
      exact hle

theorem condRepr_textMention (marker : String) :
    CondRepr (fun _ => .textMention marker) (fun _ m => strContains m.content marker) :=
  fun _ _ => rfl

theorem condRepr_count (N : Nat) :
    CondRepr (fun n => .maxMessage N n) (fun k _ => decide (N ≤ k + 1)) :=
  fun _ _ => rfl

theorem condRepr_notebook :
    CondRepr (fun n => .orCond (.textMention "APPROVE") (.maxMessage 12 n))
      (fun k m => strContains m.content "APPROVE" || decide (12 ≤ k + 1)) :=
  fun _ _ => rfl

theorem noFire_textMention_clean (marker : String) :
    ∀ (l : List Message) (n : Nat),
      NoFire (fun _ m => strContains m.content marker) n l →
      ∀ m ∈ l, strContains m.content marker = false := by
  intro l
  induction l with
  | nil => intro n _ m hm; exact absurd hm (List.not_mem_nil m)
  | cons q qs ih =>
    intro n h m hm
    obtain ⟨hq, hqs⟩ := h
    rcases List.mem_cons.1 hm with hm | hm
    · rw [hm]; exact hq
    · exact ih (n + 1) hqs m hm

theorem noFire_or_clean :
    ∀ (l : List Message) (n : Nat),
      NoFire (fun k m => strContains m.content "APPROVE" || decide (12 ≤ k + 1)) n l →
      (∀ m ∈ l, strContains m.content "APPROVE" = false) ∧ (l = [] ∨ n + l.length < 12) := by
  intro l
  induction l with
  | nil => intro n _; exact ⟨by simp, Or.inl rfl⟩
  | cons q qs ih =>
    intro n h
    obtain ⟨hq, hqs⟩ := h
    rw [Bool.or_eq_false_iff] at hq
    obtain ⟨hq1, hq2⟩ := hq
    have hn : n + 1 < 12 := by
      have := of_decide_eq_false hq2
      omega
    obtain ⟨ihc, ihl⟩ := ih (n + 1) hqs
    refine ⟨?_, ?_⟩
    · intro m hm
      rcases List.mem_cons.1 hm with hm | hm
      · rw [hm]; exact hq1
      · exact ihc m hm
    · right
      rcases ihl with he | hlt
      · rw [he]; simp; omega
      · simp only [List.length_cons]; omega

theorem noFire_count_len (N : Nat) :
    ∀ (l : List Message) (n : Nat),
      NoFire (fun k _ => decide (N ≤ k + 1)) n l → l = [] ∨ n + l.length < N := by
  intro l
  induction l with
  | nil => intro n _; exact Or.inl rfl
  | cons q qs ih =>
    intro n h
    obtain ⟨hq, hqs⟩ := h
    have hn : n + 1 < N := by
      have := of_decide_eq_false hq
      omega
    right
    rcases ih (n + 1) hqs with he | hlt
    · rw [he]; simp; omega
    · simp only [List.length_cons]; omega

theorem append_eq_snoc_cases {α : Type} :
    ∀ (a c : List α) (x y : α) (b : List α),
      a ++ x :: b = c ++ [y] → x ∈ c ∨ (a = c ∧ x = y ∧ b = []) := by
  intro a
  induction a with
  | nil =>
    intro c x y b h
    cases c with
    | nil =>
      simp only [List.nil_append] at h
      have h1 : x = y := by
        have := congrArg (fun l => List.head? l) h
        simpa using this
      have h2 : b = [] := by
        have := congrArg (fun l => List.tail l) h
        simpa using this
      exact Or.inr ⟨rfl, h1, h2⟩
    | cons z c' =>
      simp only [List.nil_append, List.cons_append, List.cons.injEq] at h
      exact Or.inl (by rw [h.1]; simp)
  | cons w a' ih =>
    intro c x y b h
    cases c with
    | nil =>
      simp only [List.cons_append, List.nil_append, List.cons.injEq] at h
      exact absurd h.2 (by simp)
    | cons z c' =>
      simp only [List.cons_append, List.cons.injEq] at h
      rcases ih c' x y b h.2 with hx | ⟨h1, h2, h3⟩
      · exact Or.inl (List.mem_cons_of_mem z hx)
      · exact Or.inr ⟨by rw [h.1, h1], h2, h3⟩

/-- C1: under the content-match condition on the marker APPROVE, any transcript
message whose content contains APPROVE is the last message of the run — nothing
was appended after it, the run ended with a fired status, and no earlier
appended message contains APPROVE: the run stops immediately after the first
APPROVE message, before any remaining scheduled participant takes a turn. -/
theorem C1_content_match_stops_immediately (parts : List Participant) (cap : Nat)
    (seed : Message) (pre : List Message) (m : Message) (post : List Message)
    (h1 : (run parts (.textMention "APPROVE") cap seed).transcript = seed :: (pre ++ m :: post))
    (h2 : strContains m.content "APPROVE" = true) :
    post = [] ∧ (run parts (.textMention "APPROVE") cap seed).status = .fired ∧
      ∀ m' ∈ pre, strContains m'.content "APPROVE" = false := by
  obtain ⟨taken, htr, hap, hprov, hexh, hfir⟩ :=
    runLoop_spec (condRepr_textMention "APPROVE") parts cap cap
      ⟨[seed], .textMention "APPROVE", 0⟩ rfl
  have htrRun : (run parts (.textMention "APPROVE") cap seed).transcript = seed :: taken := by
    show (runLoop parts cap cap ⟨[seed], .textMention "APPROVE", 0⟩).1.transcript
      = seed :: taken
    rw [htr]; rfl
  have hEq : taken = pre ++ m :: post := by
    rw [htrRun] at h1
    simpa using h1
  rcases hout : (run parts (.textMention "APPROVE") cap seed).status with _ | _
  · -- fired
    have hout' : (runLoop parts cap cap ⟨[seed], .textMention "APPROVE", 0⟩).2 = .fired := hout
    obtain ⟨pre', last, hsp, hnf, hFl⟩ := hfir hout'
    have hnf0 : NoFire (fun _ mm => strContains mm.content "APPROVE") 0 pre' := hnf
    have hclean := noFire_textMention_clean "APPROVE" pre' 0 hnf0
    have hcomb : pre ++ m :: post = pre' ++ [last] := hEq.symm.trans hsp
    rcases append_eq_snoc_cases pre pre' m last post hcomb with hmem | ⟨hpre, _, hpost⟩
    · have hfalse := hclean m hmem
      rw [hfalse] at h2
      exact Bool.noConfusion h2
    · refine ⟨hpost, rfl, ?_⟩
      intro m' hm'
      exact hclean m' (by rw [← hpre]; exact hm')
  · -- exhausted
    have hout' : (runLoop parts cap cap ⟨[seed], .textMention "APPROVE", 0⟩).2 = .exhausted := hout
    have hnf : NoFire (fun _ mm => strContains mm.content "APPROVE") 0 taken := hexh hout'
    have hclean := noFire_textMention_clean "APPROVE" taken 0 hnf
    have hm : m ∈ taken := by
      rw [hEq]
      exact List.mem_append.2 (Or.inr (by simp))
    have hfalse := hclean m hm
    rw [hfalse] at h2
    exact Bool.noConfusion h2

/-- Witness for C1 at a concrete run whose first message contains APPROVE. -/
theorem C1_witness :
    (run [wApprover] (.textMention "APPROVE") 5 wSeed).transcript
      = wSeed :: ([] ++ wApproveMsg :: []) ∧
    strContains wApproveMsg.content "APPROVE" = true ∧
    (([] : List Message) = [] ∧
      (run [wApprover] (.textMention "APPROVE") 5 wSeed).status = .fired ∧
      ∀ m' ∈ ([] : List Message), strContains m'.content "APPROVE" = false) :=
  ⟨by decide, by decide,
    C1_content_match_stops_immediately [wApprover] 5 wSeed [] wApproveMsg [] (by decide) (by decide)⟩

theorem firstApproveIdx_all_clean :
    ∀ (ms : List Message), (∀ m ∈ ms, strContains m.content "APPROVE" = false) →
      firstApproveIdx ms = none := by
  intro ms
  induction ms with
  | nil => intro _; rfl
  | cons q qs ih =>
    intro h
    have hq := h q (by simp)
    simp [firstApproveIdx, hq, ih (fun m hm => h m (by simp [hm]))]

theorem firstApproveIdx_append_last (pre : List Message) (last : Message)
    (h : ∀ m ∈ pre, strContains m.content "APPROVE" = false) :
    firstApproveIdx (pre ++ [last]) =
      if strContains last.content "APPROVE" = true then some (pre.length + 1) else none := by
  induction pre with
  | nil =>
    by_cases hl : strContains last.content "APPROVE" = true
    · simp [firstApproveIdx, hl]
    · simp [firstApproveIdx, hl]
  | cons q qs ih =>
    have hq := h q (by simp)
    simp only [List.cons_append, firstApproveIdx, hq, if_false, Bool.false_eq_true,
      List.append_eq]
    rw [ih (fun m hm => h m (by simp [hm]))]
    by_cases hl : strContains last.content "APPROVE" = true
    · simp [hl]
    · simp [hl]

/-- C2: under content-match(APPROVE) OR count-bound(12), a fired run stops at
message index min(12, index of the first APPROVE message) — 12 when no APPROVE
occurred — and an exhausted run (the hard cap only) contains no APPROVE and
fewer than 12 appended messages. -/
theorem C2_or_condition_stops_at_min (parts : List Participant) (cap : Nat) (seed : Message) :
    ∃ ms, (run parts notebookTermination cap seed).transcript = seed :: ms ∧
      ((run parts notebookTermination cap seed).status = .fired →
        (match firstApproveIdx ms with
         | some k => ms.length = min 12 k
         | none => ms.length = 12)) ∧
      ((run parts notebookTermination cap seed).status = .exhausted →
        firstApproveIdx ms = none ∧ ms.length < 12) := by
  obtain ⟨taken, htr, hap, hprov, hexh, hfir⟩ :=
    runLoop_spec condRepr_notebook parts cap cap ⟨[seed], notebookTermination, 0⟩ rfl
  refine ⟨taken, ?_, ?_, ?_⟩
  · show (runLoop parts cap cap ⟨[seed], notebookTermination, 0⟩).1.transcript = seed :: taken
    rw [htr]; rfl
  · intro hout
    have hout' : (runLoop parts cap cap ⟨[seed], notebookTermination, 0⟩).2 = .fired := hout
    obtain ⟨pre, last, hsp, hnf, hFl⟩ := hfir hout'
    have hnf0 : NoFire (fun k mm => strContains mm.content "APPROVE" || decide (12 ≤ k + 1))
        0 pre := hnf
    have hFl0 : (strContains last.content "APPROVE" || decide (12 ≤ 0 + pre.length + 1))
        = true := hFl
    obtain ⟨hclean, hlen⟩ := noFire_or_clean pre 0 hnf0
    have hpre_len : pre.length < 12 := by
      rcases hlen with he | hlt
      · rw [he]; decide
      · omega
    rw [hsp, firstApproveIdx_append_last pre last hclean]
    by_cases hl : strContains last.content "APPROVE" = true
    · simp only [hl, if_true, List.length_append, List.length_cons, List.length_nil]
      omega
    · have h12 : 12 ≤ pre.length + 1 := by
        rcases Bool.or_eq_true_iff.1 hFl0 with hA | hB
        · exact absurd hA hl
        · have := of_decide_eq_true hB
          omega
      rw [if_neg hl]
      show (pre ++ [last]).length = 12
      simp only [List.length_append, List.length_cons, List.length_nil]
      omega
  · intro hout
    have hout' : (runLoop parts cap cap ⟨[seed], notebookTermination, 0⟩).2 = .exhausted := hout
    have hnf0 : NoFire (fun k mm => strContains mm.content "APPROVE" || decide (12 ≤ k + 1))
        0 taken := hexh hout'
    obtain ⟨hclean, hlen⟩ := noFire_or_clean taken 0 hnf0
    refine ⟨firstApproveIdx_all_clean taken hclean, ?_⟩
    rcases hlen with he | hlt
    · rw [he]; decide
    · omega

/-- Witness for C2 at a concrete run stopping on its first APPROVE message. -/
theorem C2_witness :
    ∃ ms, (run [wApprover] notebookTermination 20 wSeed).transcript = wSeed :: ms ∧
      ((run [wApprover] notebookTermination 20 wSeed).status = .fired →
        (match firstApproveIdx ms with
         | some k => ms.length = min 12 k
         | none => ms.length = 12)) ∧
      ((run [wApprover] notebookTermination 20 wSeed).status = .exhausted →
        firstApproveIdx ms = none ∧ ms.length < 12) :=
  C2_or_condition_stops_at_min [wApprover] 20 wSeed

theorem c3_runLoop_fires (parts : List Participant) (N cap : Nat)
    (hparts : parts ≠ []) (hact : ∀ p ∈ parts, ∀ t, p.act t ≠ []) (hcapN : N ≤ cap) :
    ∀ (fuel : Nat) (st : SchedState), st.cond = .maxMessage N st.appended →
      st.appended < N → N ≤ st.appended + fuel →
      (runLoop parts cap fuel st).2 = .fired := by
  intro fuel
  induction fuel with
  | zero => intro st _ h1 h2; omega
  | succ f ihf =>
    intro st hc h1 h2
    obtain ⟨hcondR, tkR, htrR, hapR, hokR, hcpR, hfirR⟩ :=
      roundLoop_spec (condRepr_count N) cap parts st hc
    obtain ⟨tkS, htrS, hapS, _, hprogS⟩ := roundLoop_shape cap parts st
    rcases hR : roundLoop cap st parts with ⟨st1, out1⟩
    simp only [hR] at hcondR htrR hapR hokR hcpR hfirR htrS hapS hprogS
    cases out1 with
    | fired => simp [runLoop, hR]
    | capped =>
      obtain ⟨hnf, hcap1⟩ := hcpR rfl
      rcases noFire_count_len N tkR st.appended hnf with he | hlt
      · rw [he] at hapR
        simp only [List.length_nil] at hapR
        omega
      · rw [hapR] at hcap1
        omega
    | ok =>
      have hnf := hokR rfl
      have hlt1 : st1.appended < N := by
        rcases noFire_count_len N tkR st.appended hnf with he | hlt
        · rw [he] at hapR
          simp only [List.length_nil] at hapR
          omega
        · omega
      have hprog : st.appended < st1.appended := hprogS rfl hparts hact
      have hrun : runLoop parts cap (f + 1) st = runLoop parts cap f st1 := by
        simp [runLoop, hR]
      rw [hrun]
      exact ihf st1 hcondR hlt1 (by omega)

/-- C3: for every threshold N between 1 and the hard cap, a run under the
message-count bound N with a non-empty participant list whose members always
produce at least one message per turn stops fired with exactly N messages in
the transcript beyond the seed. -/
theorem C3_count_bound_exactly_N (parts : List Participant) (N cap : Nat) (seed : Message)
    (hN : 1 ≤ N) (hcap : N ≤ cap) (hparts : parts ≠ [])
    (hact : ∀ p ∈ parts, ∀ t, p.act t ≠ []) :
    (run parts (.maxMessage N 0) cap seed).status = .fired ∧
    ∃ ms, (run parts (.maxMessage N 0) cap seed).transcript = seed :: ms ∧ ms.length = N := by
  have hfired : (runLoop parts cap cap ⟨[seed], .maxMessage N 0, 0⟩).2 = .fired :=
    c3_runLoop_fires parts N cap hparts hact hcap cap ⟨[seed], .maxMessage N 0, 0⟩ rfl
      (by show (0 : Nat) < N; omega) (by show N ≤ 0 + cap; omega)
  obtain ⟨taken, htr, hap, hprov, hexh, hfir⟩ :=
    runLoop_spec (condRepr_count N) parts cap cap ⟨[seed], .maxMessage N 0, 0⟩ rfl
  obtain ⟨pre, last, hsp, hnf, hFl⟩ := hfir hfired
  have hnf0 : NoFire (fun k _ => decide (N ≤ k + 1)) 0 pre := hnf
  have hFl0 : decide (N ≤ 0 + pre.length + 1) = true := hFl
  have hge : N ≤ pre.length + 1 := by
    have := of_decide_eq_true hFl0
    omega
  have hlen : pre.length + 1 = N := by
    rcases noFire_count_len N pre 0 hnf0 with he | hlt
    · rw [he] at hge ⊢
      simp only [List.length_nil] at hge ⊢
      omega
    · omega
  refine ⟨hfired, taken, ?_, ?_⟩
  · show (runLoop parts cap cap ⟨[seed], .maxMessage N 0, 0⟩).1.transcript = seed :: taken
    rw [htr]; rfl
  · rw [hsp]
    simp only [List.length_append, List.length_cons, List.length_nil]
    omega

/-- Witness for C3 with one always-producing participant and N = 3. -/
theorem C3_witness :
    1 ≤ 3 ∧ 3 ≤ 10 ∧ ([wHi] : List Participant) ≠ [] ∧
    ((run [wHi] (.maxMessage 3 0) 10 wSeed).status = .fired ∧
     ∃ ms, (run [wHi] (.maxMessage 3 0) 10 wSeed).transcript = wSeed :: ms ∧ ms.length = 3) :=
  ⟨by omega, by omega, by simp,
    C3_count_bound_exactly_N [wHi] 3 10 wSeed (by omega) (by omega) (by simp)
      (by intro p hp t
          simp only [List.mem_singleton] at hp
          subst hp
          simp [wHi])⟩

/-- C7: the scheduler is total, and when the termination condition can never
fire — a content-match marker that no producible message contains — the hard
round/message cap ends the run with an exhausted status instead of looping
forever, with the transcript bounded by the cap plus the seed. -/
theorem C7_no_fire_is_exhausted (parts : List Participant) (cap : Nat)
    (seed : Message) (marker : String) (hcap : 1 ≤ cap)
    (hno : ∀ p ∈ parts, ∀ t, ∀ m ∈ p.act t, strContains m.content marker = false) :
    (run parts (.textMention marker) cap seed).status = .exhausted ∧
    (run parts (.textMention marker) cap seed).transcript.length ≤ cap + 1 := by
  obtain ⟨taken, htr, hap, hprov, hexh, hfir⟩ :=
    runLoop_spec (condRepr_textMention marker) parts cap cap
      ⟨[seed], .textMention marker, 0⟩ rfl
  have hst : (runLoop parts cap cap ⟨[seed], .textMention marker, 0⟩).2 = .exhausted := by
    rcases hout : (runLoop parts cap cap ⟨[seed], .textMention marker, 0⟩).2 with _ | _
    · obtain ⟨pre, last, hsp, _, hFl⟩ := hfir hout
      have hFl0 : strContains last.content marker = true := hFl
      have hlast : last ∈ taken := by
        rw [hsp]
        exact List.mem_append.2 (Or.inr (by simp))
      obtain ⟨p, t, hp, hm⟩ := hprov last hlast
      have hfalse := hno p hp t last hm
      rw [hfalse] at hFl0
      exact Bool.noConfusion hFl0
    · rfl
  have hle := runLoop_le_cap parts cap cap ⟨[seed], .textMention marker, 0⟩
    (by show (0 : Nat) < cap; omega)
  have hap0 : (runLoop parts cap cap ⟨[seed], .textMention marker, 0⟩).1.appended
      = 0 + taken.length := hap
  refine ⟨hst, ?_⟩
  show (runLoop parts cap cap ⟨[seed], .textMention marker, 0⟩).1.transcript.length ≤ cap + 1
  rw [htr]
  show ([seed] ++ taken).length ≤ cap + 1
  simp only [List.length_append, List.length_cons, List.length_nil]
  omega

/-- Witness for C7 with a marker no participant ever emits. -/
theorem C7_witness :
    1 ≤ 3 ∧
    ((run [wHi] (.textMention "ZZZ") 3 wSeed).status = .exhausted ∧
     (run [wHi] (.textMention "ZZZ") 3 wSeed).transcript.length ≤ 3 + 1) :=
  ⟨by omega,
    C7_no_fire_is_exhausted [wHi] 3 wSeed "ZZZ" (by omega)
      (by intro p hp t m hm
          simp only [List.mem_singleton] at hp
          subst hp
          simp only [wHi] at hm
          simp only [List.mem_singleton] at hm
          subst hm
          decide)⟩

theorem appendLoop_singleton (cap : Nat) (st : SchedState) (m : Message) :
    (appendLoop cap st [m]).1
      = ⟨st.transcript ++ [m], (st.cond.step m).2, st.appended + 1⟩ := by
  by_cases h1 : (st.cond.step m).1 = true
  · simp [appendLoop, h1]
  · by_cases h2 : cap ≤ st.appended + 1
    · simp [appendLoop, h1, h2]
    · simp [appendLoop, h1, h2]

theorem roundLoop_AB (cap : Nat) (A B : Participant) (nA nB : String)
    (HA : ∀ t, ∃ c, A.act t = [⟨nA, c⟩]) (HB : ∀ t, ∃ c, B.act t = [⟨nB, c⟩])
    (st : SchedState) :
    ∃ ms, (roundLoop cap st [A, B]).1.transcript = st.transcript ++ ms ∧
      AltSrc nA nB ms ∧
      ((roundLoop cap st [A, B]).2 = .ok → ∃ c1 c2, ms = [⟨nA, c1⟩, ⟨nB, c2⟩]) := by
  obtain ⟨c1, hc1⟩ := HA st.transcript
  rcases hA : appendLoop cap st [(⟨nA, c1⟩ : Message)] with ⟨st1, out1⟩
  have hA1 : st1
      = ⟨st.transcript ++ [⟨nA, c1⟩], (st.cond.step ⟨nA, c1⟩).2, st.appended + 1⟩ := by
    have h := appendLoop_singleton cap st ⟨nA, c1⟩
    rw [hA] at h
    exact h
  have htr1 : st1.transcript = st.transcript ++ [(⟨nA, c1⟩ : Message)] := by rw [hA1]
  have hround : roundLoop cap st [A, B]
      = match appendLoop cap st (A.act st.transcript) with
        | (st2, .ok) => roundLoop cap st2 [B]
        | (st2, .fired) => (st2, .fired)
        | (st2, .capped) => (st2, .capped) := by
    simp [roundLoop]
  rw [hc1, hA] at hround
  cases out1 with
  | fired =>
    have hres : roundLoop cap st [A, B] = (st1, .fired) := hround
    refine ⟨[⟨nA, c1⟩], by rw [hres]; exact htr1, ⟨rfl, trivial⟩, ?_⟩
    intro hok
    rw [hres] at hok
    exact StepOutcome.noConfusion hok
  | capped =>
    have hres : roundLoop cap st [A, B] = (st1, .capped) := hround
    refine ⟨[⟨nA, c1⟩], by rw [hres]; exact htr1, ⟨rfl, trivial⟩, ?_⟩
    intro hok
    rw [hres] at hok
    exact StepOutcome.noConfusion hok
  | ok =>
    have hnext : roundLoop cap st [A, B] = roundLoop cap st1 [B] := hround
    obtain ⟨c2, hc2⟩ := HB st1.transcript
    rcases hB : appendLoop cap st1 [(⟨nB, c2⟩ : Message)] with ⟨st2, out2⟩
    have hB1 : st2
        = ⟨st1.transcript ++ [⟨nB, c2⟩], (st1.cond.step ⟨nB, c2⟩).2, st1.appended + 1⟩ := by
      have h := appendLoop_singleton cap st1 ⟨nB, c2⟩
      rw [hB] at h
      exact h
    have htr2 : st2.transcript
        = st.transcript ++ [(⟨nA, c1⟩ : Message), ⟨nB, c2⟩] := by
      rw [hB1]
      show st1.transcript ++ [(⟨nB, c2⟩ : Message)] = _
      rw [htr1, List.append_assoc]
      rfl
    have hround2 : roundLoop cap st1 [B]
        = match appendLoop cap st1 (B.act st1.transcript) with
          | (st3, .ok) => roundLoop cap st3 ([] : List Participant)
          | (st3, .fired) => (st3, .fired)
          | (st3, .capped) => (st3, .capped) := by
      simp [roundLoop]
    rw [hc2, hB] at hround2
    cases out2 with
    | fired =>
      have hres : roundLoop cap st [A, B] = (st2, .fired) := hnext.trans hround2
      refine ⟨[⟨nA, c1⟩, ⟨nB, c2⟩], by rw [hres]; exact htr2, ⟨rfl, rfl, trivial⟩, ?_⟩
      intro hok
      rw [hres] at hok
      exact StepOutcome.noConfusion hok
    | capped =>
      have hres : roundLoop cap st [A, B] = (st2, .capped) := hnext.trans hround2
      refine ⟨[⟨nA, c1⟩, ⟨nB, c2⟩], by rw [hres]; exact htr2, ⟨rfl, rfl, trivial⟩, ?_⟩
      intro hok
      rw [hres] at hok
      exact StepOutcome.noConfusion hok
    | ok =>
      have hres : roundLoop cap st [A, B] = (st2, .ok) := hnext.trans hround2
      refine ⟨[⟨nA, c1⟩, ⟨nB, c2⟩], by rw [hres]; exact htr2, ⟨rfl, rfl, trivial⟩, ?_⟩
      intro _
      exact ⟨c1, c2, rfl⟩

theorem runLoop_AB (cap : Nat) (A B : Participant) (nA nB : String)
    (HA : ∀ t, ∃ c, A.act t = [⟨nA, c⟩]) (HB : ∀ t, ∃ c, B.act t = [⟨nB, c⟩]) :
    ∀ (fuel : Nat) (st : SchedState),
      ∃ ms, (runLoop [A, B] cap fuel st).1.transcript = st.transcript ++ ms ∧
        AltSrc nA nB ms := by
  intro fuel
  induction fuel with
  | zero => intro st; exact ⟨[], by simp [runLoop], trivial⟩
  | succ f ihf =>
    intro st
    obtain ⟨ms1, htr1, halt1, hok1⟩ := roundLoop_AB cap A B nA nB HA HB st
    rcases hR : roundLoop cap st [A, B] with ⟨st1, out1⟩
    rw [hR] at htr1 hok1
    cases out1 with
    | ok =>
      obtain ⟨c1, c2, hms1⟩ := hok1 rfl
      obtain ⟨ms2, htr2, halt2⟩ := ihf st1
      have hrun : runLoop [A, B] cap (f + 1) st = runLoop [A, B] cap f st1 := by
        simp [runLoop, hR]
      rw [hrun]
      refine ⟨(⟨nA, c1⟩ : Message) :: ⟨nB, c2⟩ :: ms2, ?_, rfl, rfl, halt2⟩
      rw [htr2]
      show st1.transcript ++ ms2 = _
      rw [show st1.transcript = (st1, StepOutcome.ok).1.transcript from rfl, htr1, hms1,
        List.append_assoc]
      rfl
    | fired =>
      have hrun : runLoop [A, B] cap (f + 1) st = (st1, .fired) := by
        simp [runLoop, hR]
      rw [hrun]
      exact ⟨ms1, htr1, halt1⟩
    | capped =>
      have hrun : runLoop [A, B] cap (f + 1) st = (st1, .exhausted) := by
        simp [runLoop, hR]
      rw [hrun]
      exact ⟨ms1, htr1, halt1⟩

theorem altSrc_get :
    ∀ (ms : List Message) (a b : String), AltSrc a b ms →
      ∀ (i : Nat) (h : i < ms.length),
        (ms.get ⟨i, h⟩).source = if i % 2 = 0 then a else b := by
  intro ms
  induction ms with
  | nil => intro a b _ i h; exact absurd h (by simp)
  | cons m ms ih =>
    intro a b halt i h
    obtain ⟨hm, hms⟩ := halt
    match i with
    | 0 => simpa using hm
    | Nat.succ j =>
      have hj : j < ms.length := by
        simp only [List.length_cons] at h
        omega
      have hrec := ih b a hms j hj
      show (ms.get ⟨j, hj⟩).source = _
      rw [hrec]
      rcases Nat.mod_two_eq_zero_or_one j with hp | hp
      · have hp2 : (j + 1) % 2 = 1 := by omega
        simp [hp, hp2]
      · have hp2 : (j + 1) % 2 = 0 := by omega
        simp [hp, hp2]

/-- C4: in a two-participant round-robin team [A, B] where each participant
emits exactly one message per turn under its own name, the transcript after the
seed alternates A, B, A, B, …: the source of message i is A when i is even and
B when i is odd, until termination. -/
theorem C4_round_robin_alternation (A B : Participant) (nA nB : String)
    (cond : TermCond) (cap : Nat) (seed : Message)
    (HA : ∀ t, ∃ c, A.act t = [⟨nA, c⟩]) (HB : ∀ t, ∃ c, B.act t = [⟨nB, c⟩]) :
    ∃ ms, (run [A, B] cond cap seed).transcript = seed :: ms ∧
      ∀ (i : Nat) (h : i < ms.length),
        (ms.get ⟨i, h⟩).source = if i % 2 = 0 then nA else nB := by
  obtain ⟨ms, htr, halt⟩ := runLoop_AB cap A B nA nB HA HB cap ⟨[seed], cond, 0⟩
  refine ⟨ms, ?_, altSrc_get ms nA nB halt⟩
  show (runLoop [A, B] cap cap ⟨[seed], cond, 0⟩).1.transcript = seed :: ms
  rw [htr]; rfl

/-- Witness for C4 with concrete participants A and B. -/
theorem C4_witness :
    ∃ ms, (run [wA, wB] (.maxMessage 5 0) 20 wSeed).transcript = wSeed :: ms ∧
      ∀ (i : Nat) (h : i < ms.length),
        (ms.get ⟨i, h⟩).source = if i % 2 = 0 then "A" else "B" :=
  C4_round_robin_alternation wA wB "A" "B" (.maxMessage 5 0) 20 wSeed
    (fun _ => ⟨"alpha", rfl⟩) (fun _ => ⟨"beta", rfl⟩)
